import Mathlib

/-!
Verification of the dependency-graph tool in `src/main.py`.

The development shallowly embeds the graph construction and traversal
engine: the substring filter, the edge store (an insertion-ordered
association list standing for Python's `Dict[str, Set[str]]`), the
filter-pruned DFS, graph reversal, breadth-first reachability, the
reverse-dependency subgraph reconstruction of `main`, the crates.io
builder (with the registry fetch modelled as an oracle, and Python's
exception split between `SystemExit` and ordinary `Exception` made
explicit), and the DOT renderer.
-/

namespace DepsTool

/-! ## Substring filter

Python: `flt_low = (flt or "").lower()` and the test
`flt_low and flt_low in node.lower()`. -/

/-- The lowercase character sequence of a string, as in `s.lower()`. -/
def lowerChars (s : String) : List Char := s.data.map Char.toLower

/-- Whether the first character list is a prefix of the second. -/
def isPrefixL : List Char → List Char → Bool
  | [], _ => true
  | _ :: _, [] => false
  | a :: as, b :: bs => a == b && isPrefixL as bs

/-- Whether `pat` occurs as a contiguous substring, as Python's `in`. -/
def isInfixL (pat : List Char) : List Char → Bool
  | [] => isPrefixL pat []
  | c :: cs => isPrefixL pat (c :: cs) || isInfixL pat cs

/-- The node-exclusion test: a non-empty filter whose lowercase form is a
substring of the lowercase node name. -/
def matchesF (flt node : String) : Bool :=
  !(lowerChars flt).isEmpty && isInfixL (lowerChars flt) (lowerChars node)

/-! ## Edge store

`Graph = Dict[str, Set[str]]`, kept as an insertion-ordered association
list; a value list plays the role of a set (inserts deduplicate). -/

/-- Adjacency mapping from a node to its direct dependencies. -/
abbrev Graph := List (String × List String)

/-- `g.get(u, ())`: the value at key `u`, empty when absent. -/
def graphGet (g : Graph) (u : String) : List String :=
  match g with
  | [] => []
  | (k, vs) :: rest => if k = u then vs else graphGet rest u

/-- `u in g`: key membership. -/
def isKey (g : Graph) (u : String) : Bool :=
  g.any (fun p => p.1 == u)

/-- `g[u].add(v)` on a `defaultdict(set)`: create the key on first use,
insert `v` into its set. -/
def addEdge : Graph → String → String → Graph
  | [], u, v => [(u, [v])]
  | (k, vs) :: rest, u, v =>
    if k = u then (k, if v ∈ vs then vs else vs ++ [v]) :: rest
    else (k, vs) :: addEdge rest u v

/-- `g.setdefault(u, set())`. -/
def setdefault (g : Graph) (u : String) : Graph :=
  if isKey g u then g else g ++ [(u, [])]

/-- The keys of the mapping, in insertion order. -/
def keysList (g : Graph) : List String := g.map Prod.fst

/-- All edge targets, with multiplicity, in iteration order. -/
def targetsList (g : Graph) : List String := g.flatMap Prod.snd

/-- All edges `(u, v)` in iteration order. -/
def edgeList (g : Graph) : List (String × String) :=
  g.flatMap (fun p => p.2.map (fun v => (p.1, v)))

/-! ## Filter-pruned DFS (`dfs_prune_by_filter`)

State is the pair (visited, out).  The recursion is measured by fuel;
each level that proceeds past the guards appends a new node to the
visited list, so `pruneFuel` overapproximates the needed depth. -/

/-- The body of `for v in g.get(u, ())`: skip a filtered child, record the
edge `u → v` in `out`, recurse. -/
def pruneLoop (flt u : String)
    (rec : List String × Graph → String → List String × Graph) :
    List String × Graph → List String → List String × Graph
  | st, [] => st
  | st, v :: vs =>
    if matchesF flt v then pruneLoop flt u rec st vs
    else pruneLoop flt u rec (rec (st.1, addEdge st.2 u v) v) vs

/-- The inner `dfs(u)` of `dfs_prune_by_filter`: return when visited or
filtered, otherwise mark visited and walk the children. -/
def pruneGo (g : Graph) (flt : String) :
    Nat → List String × Graph → String → List String × Graph
  | 0, st, _ => st
  | fuel + 1, st, u =>
    if u ∈ st.1 then st
    else if matchesF flt u then st
    else pruneLoop flt u (pruneGo g flt fuel) (st.1 ++ [u], st.2) (graphGet g u)

/-- A recursion-depth allowance larger than the number of nodes that can
ever be visited. -/
def pruneFuel (g : Graph) : Nat :=
  (keysList g).length + (targetsList g).length + 1

/-- `dfs_prune_by_filter(g, start, flt)`: the recorded subgraph after
`dfs(start)` from the empty state. -/
def dfs_prune_by_filter (g : Graph) (start flt : String) : Graph :=
  (pruneGo g flt (pruneFuel g) ([], []) start).2

/-! ## Reverse graph (`reverse_graph`) -/

/-- `for v in nbrs: r[v].add(u)`. -/
def revEdges (u : String) : Graph → List String → Graph
  | r, [] => r
  | r, v :: vs => revEdges u (addEdge r v u) vs

/-- `for u, nbrs in g.items(): ...; r.setdefault(u, set())`. -/
def revGo : Graph → Graph → Graph
  | r, [] => r
  | r, (u, nbrs) :: rest => revGo (setdefault (revEdges u r nbrs) u) rest

/-- `reverse_graph(g)`. -/
def reverse_graph (g : Graph) : Graph := revGo [] g

/-! ## Breadth-first reachability (`reachable`)

The `while dq` loop is measured by fuel; `bfsFuel` is proved sufficient
below (`bfsRun_total`), so `reachable` computes the loop's true result. -/

/-- One node expansion: `for v in g.get(u, ()): if v not in seen: ...`.
Returns the grown seen-list and the nodes appended to the queue. -/
def bfsScan : List String → List String → List String × List String
  | seen, [] => (seen, [])
  | seen, v :: vs =>
    if v ∈ seen then bfsScan seen vs
    else
      let p := bfsScan (seen ++ [v]) vs
      (p.1, v :: p.2)

/-- The worklist loop of `reachable`, with a fuel bound; `none` marks an
exhausted allowance, never reached from `bfsFuel`. -/
def bfsRun (g : Graph) : Nat → List String → List String → Option (List String)
  | _, seen, [] => some seen
  | 0, _, _ :: _ => none
  | fuel + 1, seen, u :: dq =>
    let p := bfsScan seen (graphGet g u)
    bfsRun g fuel p.1 (dq ++ p.2)

/-- One more iteration than nodes that can ever enter the seen-set. -/
def bfsFuel (g : Graph) : Nat := (targetsList g).length + 1

/-- `reachable(g, start)`: run the worklist from queue `[start]` and empty
seen-set. -/
def reachable (g : Graph) (start : String) : List String :=
  (bfsRun g (bfsFuel g) [] [start]).getD []

/-- The worklist loop instrumented with the list of every node ever
enqueued (the initial seeding included by the caller). -/
def bfsLogGo (g : Graph) :
    Nat → List String → List String → List String →
    Option (List String × List String)
  | _, seen, [], log => some (seen, log)
  | 0, _, _ :: _, _ => none
  | fuel + 1, seen, u :: dq, log =>
    let p := bfsScan seen (graphGet g u)
    bfsLogGo g fuel p.1 (dq ++ p.2) (log ++ p.2)

/-- The full enqueue log of `reachable(g, start)`. -/
def bfsLog (g : Graph) (start : String) : List String :=
  match bfsLogGo g (bfsFuel g) [] [start] [start] with
  | some p => p.2
  | none => []

/-- Loop invariant for completeness of `reachable`: the start, and every
node of the seen-list, is either still queued or already fully expanded
into the seen-list. -/
def BfsInv (g : Graph) (s : String) (seen dq : List String) : Prop :=
  (s ∈ dq ∨ ∀ y ∈ graphGet g s, y ∈ seen) ∧
  ∀ x ∈ seen, x ∈ dq ∨ ∀ y ∈ graphGet g x, y ∈ seen

/-! ## Reverse-dependency subgraph reconstruction (in `main`) -/

/-- `for u in r.get(v, ()): if u in depends_on_me or u == target:
g_rev[v].add(u)`. -/
def revSubInner (d : List String) (target v : String) :
    Graph → List String → Graph
  | acc, [] => acc
  | acc, u :: us =>
    revSubInner d target v
      (if u ∈ d ∨ u = target then addEdge acc v u else acc) us

/-- `for v in depends_on_me: ...`. -/
def revSubOuter (r : Graph) (target : String) (d : List String) :
    Graph → List String → Graph
  | acc, [] => acc
  | acc, v :: vs =>
    revSubOuter r target d (revSubInner d target v acc (graphGet r v)) vs

/-- The reverse-dependency query of `main`: reverse the full graph, take
the cone reachable from the target, keep its internal reverse edges. -/
def reverse_subgraph (g : Graph) (target : String) : Graph :=
  let r := reverse_graph g
  let d := reachable r target
  revSubOuter r target d [] d

/-- The local graph described by the lines `A: B C`, `B: C`, `C:`. -/
def localG : Graph := [("A", ["B", "C"]), ("B", ["C"]), ("C", [])]

/-! ## DOT rendering (`to_dot`) -/

/-- One quoted-pair arrow statement. -/
def arrowLine (u v : String) : String :=
  "  \"" ++ u ++ "\" -> \"" ++ v ++ "\";"

/-- One standalone quoted node statement. -/
def nodeLine (n : String) : String := "  \"" ++ n ++ "\";"

/-- The two fixed opening lines of the DOT block. -/
def dotHeader : List String :=
  ["digraph deps \x7b", "  rankdir=LR; node [shape=box, fontsize=10];"]

/-- The `nodes` set after the edge loop: keys plus all targets. -/
def dotNodes (g : Graph) : List String :=
  (keysList g ++ targetsList g).dedup

/-- `n not in g and not any(n in s for s in g.values())`. -/
def isolatedInDot (g : Graph) (n : String) : Bool :=
  !isKey g n && !(g.any (fun p => p.2.contains n))

/-- The line list built by `to_dot`, in emission order. -/
def toDotLines (g : Graph) : List String :=
  dotHeader ++ (edgeList g).map (fun p => arrowLine p.1 p.2)
    ++ ((dotNodes g).filter (isolatedInDot g)).map nodeLine ++ ["\x7d"]

/-- `to_dot(g)`. -/
def to_dot (g : Graph) : String :=
  String.intercalate "\n" (toDotLines g)

/-! ## The crates.io builder (`build_graph_cratesio`)

The two HTTP endpoints are oracles.  `http_get_json` turns the named
failures into `fail(..)`, i.e. `SystemExit(2)` — a `BaseException` that
Python's `except Exception` does **not** catch — while any other raised
error is an ordinary `Exception`. -/

/-- A raised Python error: `SystemExit` (from `fail`) or an ordinary
`Exception`. -/
inductive PyErr : Type
  | systemExit (code : Nat)
  | exception
deriving DecidableEq, Repr

/-- What one HTTP request plus decoding can come to: a decoded payload, a
network error (`HTTPError`/`URLError`), undecodable JSON, or some other
raised error (say, a bad byte sequence). -/
inductive Wire (α : Type) : Type
  | ok (a : α)
  | netErr
  | badJson
  | otherExc

/-- The fields of the crate metadata answer that the tool reads:
`crate.newest_version` and the `num` of each entry of `versions`. -/
structure CrateMeta where
  newest_version : Option String
  versions : List String

/-- One entry of the dependencies answer. -/
structure RawDep where
  crate_id : String
  req : Option String
  optional : Bool
  kind : Option String

/-- `http_get_json`: the named failures call `fail`, raising
`SystemExit(2)`; anything else raised passes through as an `Exception`. -/
def http_get_json {α : Type} : Wire α → Except PyErr α
  | .ok a => .ok a
  | .netErr => .error (.systemExit 2)
  | .badJson => .error (.systemExit 2)
  | .otherExc => .error .exception

/-- `crates_latest_version`: newest version when present and non-empty,
else the first listed version, else `fail` (`SystemExit(2)`). -/
def crates_latest_version (mo : String → Wire CrateMeta) (crate : String) :
    Except PyErr String := do
  let meta ← http_get_json (mo crate)
  let newest := meta.newest_version.getD ""
  if newest = "" then
    match meta.versions with
    | [] => .error (.systemExit 2)
    | v :: _ => .ok v
  else .ok newest

/-- `d.get("kind") or "normal"`. -/
def normKind (k : Option String) : String :=
  match k with
  | none => "normal"
  | some s => if s = "" then "normal" else s

/-- `crates_direct_deps`: keep non-optional entries of kind `normal` as
`(crate_id, req, kind)` triples. -/
def crates_direct_deps (dd : String → String → Wire (List RawDep))
    (crate ver : String) : Except PyErr (List (String × String × String)) := do
  let ds ← http_get_json (dd crate ver)
  .ok (ds.foldl
    (fun acc d =>
      if d.optional then acc
      else if normKind d.kind ≠ "normal" then acc
      else acc ++ [(d.crate_id, d.req.getD "", normKind d.kind)]) [])

/-- The body of the `try` block in the builder's `dfs`: latest version,
then direct dependencies. -/
def fetchNodeDeps (mo : String → Wire CrateMeta)
    (dd : String → String → Wire (List RawDep)) (node : String) :
    Except PyErr (List (String × String × String)) := do
  let ver ← crates_latest_version mo node
  crates_direct_deps dd node ver

/-- The dependency loop of the builder's `dfs`: skip a filtered name,
record the edge, recurse into unvisited names. -/
def cratesDepLoop (flt node : String)
    (rec : Graph × List String → String → Except PyErr (Graph × List String)) :
    Graph × List String → List (String × String × String) →
    Except PyErr (Graph × List String)
  | st, [] => .ok st
  | st, d :: ds =>
    if matchesF flt d.1 then cratesDepLoop flt node rec st ds
    else
      let st1 := (addEdge st.1 node d.1, st.2)
      if d.1 ∈ st1.2 then cratesDepLoop flt node rec st1 ds
      else
        match rec st1 d.1 with
        | .error e => .error e
        | .ok st2 => cratesDepLoop flt node rec st2 ds

/-- The builder's `dfs`: filter and visited guards, mark visited, fetch
inside `try`.  `except Exception` turns an ordinary error into a leaf;
`SystemExit` escapes it and aborts the whole build. -/
def cratesDfs (mo : String → Wire CrateMeta)
    (dd : String → String → Wire (List RawDep)) (flt : String) :
    Nat → Graph × List String → String → Except PyErr (Graph × List String)
  | 0, st, _ => .ok st
  | fuel + 1, st, node =>
    if matchesF flt node then .ok st
    else if node ∈ st.2 then .ok st
    else
      let st1 := (st.1, st.2 ++ [node])
      match fetchNodeDeps mo dd node with
      | .error (.systemExit c) => .error (.systemExit c)
      | .error .exception => .ok st1
      | .ok deps => cratesDepLoop flt node (cratesDfs mo dd flt fuel) st1 deps

/-- `build_graph_cratesio(root, flt)` over the two registry oracles, with
an explicit recursion allowance. -/
def build_graph_cratesio (mo : String → Wire CrateMeta)
    (dd : String → String → Wire (List RawDep)) (fuel : Nat)
    (root flt : String) : Except PyErr Graph :=
  (cratesDfs mo dd flt fuel ([], []) root).map Prod.fst

/-! ### Concrete registry oracles used as witnesses -/

/-- A registry whose metadata endpoint is unreachable. -/
def moNet : String → Wire CrateMeta := fun _ => Wire.netErr

/-- A registry whose metadata endpoint answers undecodable JSON. -/
def moBadJson : String → Wire CrateMeta := fun _ => Wire.badJson

/-- A registry that knows no version of any crate. -/
def moNoVer : String → Wire CrateMeta := fun _ => Wire.ok ⟨none, []⟩

/-- A registry whose metadata fetch raises an ordinary exception. -/
def moExc : String → Wire CrateMeta := fun _ => Wire.otherExc

/-- A registry with version `1` for every crate. -/
def moOne : String → Wire CrateMeta := fun _ => Wire.ok ⟨some "1", []⟩

/-- A dependency endpoint with no dependencies anywhere. -/
def ddEmpty : String → String → Wire (List RawDep) := fun _ _ => Wire.ok []

/-- A dependency endpoint where crate `aa` depends on `badx` and `okx`. -/
def ddDemo : String → String → Wire (List RawDep) := fun c _ =>
  if c = "aa" then
    Wire.ok [⟨"badx", none, false, none⟩, ⟨"okx", none, false, none⟩]
  else Wire.ok []

/-! ## Reachability relations used in statements -/

/-- A path of one or more forward edges from `s` to the argument node. -/
inductive Reaches (g : Graph) (s : String) : String → Prop
  | head {v : String} : v ∈ graphGet g s → Reaches g s v
  | tail {u v : String} : Reaches g s u → v ∈ graphGet g u → Reaches g s v

/-- A path (possibly empty) from `s` every node of which, endpoints
included, escapes the filter. -/
inductive ReachNF (g : Graph) (flt s : String) : String → Prop
  | base : matchesF flt s = false → ReachNF g flt s s
  | step {u v : String} : ReachNF g flt s u → v ∈ graphGet g u →
      matchesF flt v = false → ReachNF g flt s v

/-! ## Basic facts about the edge store -/

/-- An absent key reads as the empty set. -/
theorem get_of_not_key (g : Graph) (u : String) (h : isKey g u = false) :
    graphGet g u = [] := by
  induction g with
  | nil => rfl
  | cons p rest ih =>
    simp only [isKey, List.any_cons, Bool.or_eq_false_iff, beq_eq_false_iff_ne,
      ne_eq] at h
    obtain ⟨h1, h2⟩ := h
    simpa [graphGet, h1] using ih (by simpa [isKey] using h2)

/-- Looking up the inserted key after `g[u].add(v)`. -/
theorem get_addEdge_self (g : Graph) (u v : String) :
    graphGet (addEdge g u v) u =
      if v ∈ graphGet g u then graphGet g u else graphGet g u ++ [v] := by
  induction g with
  | nil => simp [addEdge, graphGet]
  | cons q rest ih =>
    obtain ⟨k, vs⟩ := q
    by_cases hk : k = u
    · subst hk; simp [addEdge, graphGet]
    · simp [addEdge, graphGet, hk, ih]

/-- Looking up any other key after `g[u].add(v)`. -/
theorem get_addEdge_ne (g : Graph) (u v a : String) (ha : a ≠ u) :
    graphGet (addEdge g u v) a = graphGet g a := by
  induction g with
  | nil =>
    simp only [addEdge, graphGet]
    rw [if_neg (fun h : u = a => ha h.symm)]
  | cons q rest ih =>
    obtain ⟨k, vs⟩ := q
    by_cases hk : k = u
    · subst hk
      simp only [addEdge, if_pos rfl, graphGet]
      rw [if_neg (fun h : k = a => ha h.symm),
        if_neg (fun h : k = a => ha h.symm)]
    · simp only [addEdge, if_neg hk, graphGet]
      by_cases hka : k = a
      · rw [if_pos hka, if_pos hka]
      · rw [if_neg hka, if_neg hka, ih]

/-- Membership in the store after `g[u].add(v)`. -/
theorem mem_get_addEdge (g : Graph) (u v a b : String) :
    b ∈ graphGet (addEdge g u v) a ↔
      b ∈ graphGet g a ∨ (a = u ∧ b = v) := by
  by_cases ha : a = u
  · subst ha
    rw [get_addEdge_self]
    by_cases hv : v ∈ graphGet g a
    · rw [if_pos hv]
      constructor
      · exact Or.inl
      · rintro (h | ⟨-, rfl⟩)
        · exact h
        · exact hv
    · rw [if_neg hv]
      simp [List.mem_append]
  · rw [get_addEdge_ne g u v a ha]
    simp [ha]

/-- The key inserted by `g[u].add(v)` is present afterwards. -/
theorem isKey_addEdge_self (g : Graph) (u v : String) :
    isKey (addEdge g u v) u = true := by
  induction g with
  | nil => simp [addEdge, isKey]
  | cons q rest ih =>
    obtain ⟨k, vs⟩ := q
    by_cases hk : k = u
    · subst hk; simp [addEdge, isKey]
    · simp only [addEdge, if_neg hk, isKey, List.any_cons, Bool.or_eq_true]
      exact Or.inr (by simpa [isKey] using ih)

/-- Presence of other keys is unchanged by `g[u].add(v)`. -/
theorem isKey_addEdge_ne (g : Graph) (u v a : String) (ha : a ≠ u) :
    isKey (addEdge g u v) a = isKey g a := by
  induction g with
  | nil =>
    have hua : (u == a) = false := by
      simpa using fun h : u = a => ha h.symm
    simp [addEdge, isKey, hua]
  | cons q rest ih =>
    obtain ⟨k, vs⟩ := q
    by_cases hk : k = u
    · subst hk
      have hka : (k == a) = false := by
        simpa using fun h : k = a => ha h.symm
      simp [addEdge, isKey, hka]
    · simp only [addEdge, if_neg hk, isKey, List.any_cons]
      exact congrArg (fun b => ((k == a) || b)) ih

/-- Key presence after `g[u].add(v)`. -/
theorem isKey_addEdge (g : Graph) (u v a : String) :
    isKey (addEdge g u v) a = true ↔ (isKey g a = true ∨ a = u) := by
  by_cases ha : a = u
  · subst ha; simp [isKey_addEdge_self]
  · rw [isKey_addEdge_ne g u v a ha]
    simp [ha]

/-- Appending a fresh empty entry changes no lookup. -/
theorem get_append_nil (g : Graph) (u a : String) :
    graphGet (g ++ [(u, [])]) a = graphGet g a := by
  induction g with
  | nil =>
    simp only [List.nil_append, graphGet]
    split <;> rfl
  | cons q rest ih =>
    simp only [List.cons_append, graphGet]
    split
    · rfl
    · exact ih

/-- `setdefault` never changes what a lookup returns. -/
theorem get_setdefault (g : Graph) (u a : String) :
    graphGet (setdefault g u) a = graphGet g a := by
  unfold setdefault
  split
  · rfl
  · exact get_append_nil g u a

/-- Key presence after `setdefault`. -/
theorem isKey_setdefault (g : Graph) (u a : String) :
    isKey (setdefault g u) a = true ↔ (isKey g a = true ∨ a = u) := by
  unfold setdefault
  split
  · next h =>
    constructor
    · exact Or.inl
    · rintro (hk | rfl)
      · exact hk
      · exact h
  · simp only [isKey, List.any_append, List.any_cons, List.any_nil,
      Bool.or_false, Bool.or_eq_true, beq_iff_eq]
    constructor
    · rintro (h | rfl)
      · exact Or.inl h
      · exact Or.inr rfl
    · rintro (h | rfl)
      · exact Or.inl h
      · exact Or.inr rfl

/-- Every stored dependency set is non-empty. -/
def NEVals (g : Graph) : Prop := ∀ p ∈ g, p.2 ≠ []

/-- `g[u].add(v)` keeps every stored set non-empty. -/
theorem NEVals_addEdge (g : Graph) (u v : String) (h : NEVals g) :
    NEVals (addEdge g u v) := by
  induction g with
  | nil =>
    intro p hp
    simp only [addEdge, List.mem_singleton] at hp
    subst hp
    simp
  | cons q rest ih =>
    obtain ⟨k, vs⟩ := q
    intro p hp
    simp only [addEdge] at hp
    by_cases hk : k = u
    · rw [if_pos hk] at hp
      rcases List.mem_cons.mp hp with rfl | hp
      · show (if v ∈ vs then vs else vs ++ [v]) ≠ []
        split
        · exact h (k, vs) (List.mem_cons_self _ _)
        · simp
      · exact h p (List.mem_cons_of_mem _ hp)
    · rw [if_neg hk] at hp
      rcases List.mem_cons.mp hp with rfl | hp
      · exact h (k, vs) (List.mem_cons_self _ _)
      · exact ih (fun q hq => h q (List.mem_cons_of_mem _ hq)) p hp

/-- Over a store with non-empty sets, a node is a key exactly when its
lookup is non-empty. -/
theorem isKey_iff_get_ne (g : Graph) (u : String) (h : NEVals g) :
    isKey g u = true ↔ graphGet g u ≠ [] := by
  constructor
  · intro hk
    induction g with
    | nil => simp [isKey] at hk
    | cons q rest ih =>
      obtain ⟨k, vs⟩ := q
      by_cases hku : k = u
      · rw [graphGet, if_pos hku]
        exact h (k, vs) (List.mem_cons_self _ _)
      · rw [graphGet, if_neg hku]
        simp only [isKey, List.any_cons, Bool.or_eq_true, beq_iff_eq] at hk
        rcases hk with hk | hk
        · exact absurd hk hku
        · exact ih (fun q hq => h q (List.mem_cons_of_mem _ hq))
            (by simpa [isKey] using hk)
  · intro hne
    by_cases hk : isKey g u = true
    · exact hk
    · exact absurd (get_of_not_key g u (by simpa using hk)) hne

/-! ## Generic preservation through the pruned DFS -/

/-- A state predicate survives the child loop of `dfs_prune_by_filter`
when it survives edge recording and the recursive call. -/
theorem pruneLoop_pres (g : Graph) (flt u : String)
    (rec : List String × Graph → String → List String × Graph)
    (P : List String × Graph → Prop)
    (hrec : ∀ st v, matchesF flt v = false → v ∈ graphGet g u → P st →
      P (rec st v))
    (hadd : ∀ st v, matchesF flt v = false → v ∈ graphGet g u → P st →
      P (st.1, addEdge st.2 u v)) :
    ∀ vs, (∀ v ∈ vs, v ∈ graphGet g u) → ∀ st, P st →
      P (pruneLoop flt u rec st vs) := by
  intro vs
  induction vs with
  | nil => intro _ st h; simpa [pruneLoop] using h
  | cons v vs ih =>
    intro hsub st h
    by_cases hm : matchesF flt v = true
    · simpa [pruneLoop, hm] using
        ih (fun w hw => hsub w (List.mem_cons_of_mem _ hw)) st h
    · have hm' : matchesF flt v = false := by simpa using hm
      have hv : v ∈ graphGet g u := hsub v (List.mem_cons_self _ _)
      simp only [pruneLoop, hm', Bool.false_eq_true, if_neg, if_false]
      exact ih (fun w hw => hsub w (List.mem_cons_of_mem _ hw)) _
        (hrec _ v hm' hv (hadd st v hm' hv h))

/-- A state predicate survives the whole pruned DFS when it survives
visited-marking and the recording of an admissible edge; `Q` carries a
property of the node being expanded down the recursion. -/
theorem pruneGo_pres (g : Graph) (flt : String)
    (P : List String × Graph → Prop) (Q : String → Prop)
    (hQstep : ∀ u v, Q u → matchesF flt u = false → matchesF flt v = false →
      v ∈ graphGet g u → Q v)
    (hvis : ∀ st u, P st → P (st.1 ++ [u], st.2))
    (hadd : ∀ st u v, Q u → matchesF flt u = false → matchesF flt v = false →
      v ∈ graphGet g u → P st → P (st.1, addEdge st.2 u v)) :
    ∀ fuel st u, Q u → P st → P (pruneGo g flt fuel st u) := by
  intro fuel
  induction fuel with
  | zero => intro st u _ h; simpa [pruneGo] using h
  | succ fuel ih =>
    intro st u hQ h
    by_cases hv : u ∈ st.1
    · simpa [pruneGo, hv] using h
    · by_cases hm : matchesF flt u = true
      · simpa [pruneGo, hv, hm] using h
      · have hm' : matchesF flt u = false := by simpa using hm
        simp only [pruneGo, hv, hm', Bool.false_eq_true, if_neg, if_false,
          not_false_eq_true]
        apply pruneLoop_pres g flt u (pruneGo g flt fuel) P
        · intro st' v hmv hmem hP
          exact ih st' v (hQstep u v hQ hm' hmv hmem) hP
        · intro st' v hmv hmem hP
          exact hadd st' u v hQ hm' hmv hmem hP
        · intro v hvm; exact hvm
        · exact hvis st u h

/-- The pruned DFS never removes a recorded edge. -/
theorem pruneGo_mono (g : Graph) (flt a b : String) :
    ∀ fuel st u, b ∈ graphGet st.2 a →
      b ∈ graphGet (pruneGo g flt fuel st u).2 a := by
  intro fuel st u h
  exact pruneGo_pres g flt (fun st => b ∈ graphGet st.2 a) (fun _ => True)
    (fun _ _ _ _ _ _ => trivial)
    (fun _ _ h => h)
    (fun st u v _ _ _ _ h => (mem_get_addEdge st.2 u v a b).mpr (Or.inl h))
    fuel st u trivial h

/-- The child loop never removes a recorded edge. -/
theorem pruneLoop_mono (g : Graph) (flt u : String) (fuel : Nat) (a b : String) :
    ∀ vs, (∀ w ∈ vs, w ∈ graphGet g u) → ∀ st, b ∈ graphGet st.2 a →
      b ∈ graphGet (pruneLoop flt u (pruneGo g flt fuel) st vs).2 a :=
  fun vs hsub st h =>
    pruneLoop_pres g flt u (pruneGo g flt fuel) (fun st => b ∈ graphGet st.2 a)
      (fun st v _ _ h => pruneGo_mono g flt a b fuel st v h)
      (fun st v _ _ h => (mem_get_addEdge st.2 u v a b).mpr (Or.inl h))
      vs hsub st h

/-- The child loop records an edge to every non-matching child. -/
theorem pruneLoop_records (g : Graph) (flt u : String) (fuel : Nat) :
    ∀ vs, (∀ w ∈ vs, w ∈ graphGet g u) → ∀ st v, v ∈ vs →
      matchesF flt v = false →
      v ∈ graphGet (pruneLoop flt u (pruneGo g flt fuel) st vs).2 u := by
  intro vs
  induction vs with
  | nil => intro _ st v hv; cases hv
  | cons w ws ih =>
    intro hsub st v hv hmv
    have hsub' : ∀ x ∈ ws, x ∈ graphGet g u :=
      fun x hx => hsub x (List.mem_cons_of_mem _ hx)
    rcases List.mem_cons.mp hv with rfl | hv'
    · simp only [pruneLoop, hmv, Bool.false_eq_true, if_false]
      exact pruneLoop_mono g flt u fuel u v ws hsub' _
        (pruneGo_mono g flt u v fuel _ v
          ((mem_get_addEdge st.2 u v u v).mpr (Or.inr ⟨rfl, rfl⟩)))
    · by_cases hmw : matchesF flt w = true
      · simp only [pruneLoop, hmw, if_true]
        exact ih hsub' st v hv' hmv
      · have hmw' : matchesF flt w = false := by simpa using hmw
        simp only [pruneLoop, hmw', Bool.false_eq_true, if_false]
        exact ih hsub' _ v hv' hmv

/-- Soundness of recorded edges: everything the pruned DFS writes is an
edge of the source graph. -/
theorem pruneGo_edges_sound (g : Graph) (flt : String) :
    ∀ fuel st u, (∀ a b, b ∈ graphGet st.2 a → b ∈ graphGet g a) →
      ∀ a b, b ∈ graphGet (pruneGo g flt fuel st u).2 a → b ∈ graphGet g a := by
  intro fuel st u h
  refine pruneGo_pres g flt
    (fun st => ∀ a b, b ∈ graphGet st.2 a → b ∈ graphGet g a) (fun _ => True)
    (fun _ _ _ _ _ _ => trivial) (fun _ _ h => h) ?_ fuel st u trivial h
  intro st u v _ _ _ hv h a b hb
  rcases (mem_get_addEdge st.2 u v a b).mp hb with hb | ⟨rfl, rfl⟩
  · exact h a b hb
  · exact hv

/-- Every key the pruned DFS writes is reached from the start along a
filter-free path. -/
theorem pruneGo_keys_reach (g : Graph) (flt s : String) :
    ∀ fuel st u, (matchesF flt u = false → ReachNF g flt s u) →
      (∀ a, isKey st.2 a = true → ReachNF g flt s a) →
      ∀ a, isKey (pruneGo g flt fuel st u).2 a = true → ReachNF g flt s a := by
  intro fuel st u hQ h
  refine pruneGo_pres g flt (fun st => ∀ a, isKey st.2 a = true → ReachNF g flt s a)
    (fun u => matchesF flt u = false → ReachNF g flt s u)
    (fun u v hQu hmu hmv hedge _ => ReachNF.step (hQu hmu) hedge hmv)
    (fun _ _ h => h) ?_ fuel st u hQ h
  intro st u v hQu hmu _ _ h a ha
  rcases (isKey_addEdge st.2 u v a).mp ha with ha | rfl
  · exact h a ha
  · exact hQu hmu

/-- The pruned DFS only ever creates keys with non-empty sets. -/
theorem pruneGo_NEVals (g : Graph) (flt : String) :
    ∀ fuel st u, NEVals st.2 → NEVals (pruneGo g flt fuel st u).2 := by
  intro fuel st u h
  exact pruneGo_pres g flt (fun st => NEVals st.2) (fun _ => True)
    (fun _ _ _ _ _ _ => trivial) (fun _ _ h => h)
    (fun st u v _ _ _ _ h => NEVals_addEdge st.2 u v h)
    fuel st u trivial h

/-! ## Membership characterisation of the reverse graph -/

/-- A key is present exactly when it appears in the key list. -/
theorem isKey_iff_mem_keys (g : Graph) (u : String) :
    isKey g u = true ↔ u ∈ keysList g := by
  simp only [isKey, List.any_eq_true, beq_iff_eq, keysList, List.mem_map]

/-- The key list after `g[u].add(v)`. -/
theorem keysList_addEdge (g : Graph) (u v : String) :
    keysList (addEdge g u v) =
      if isKey g u then keysList g else keysList g ++ [u] := by
  induction g with
  | nil => simp [addEdge, keysList, isKey]
  | cons q rest ih =>
    obtain ⟨k, vs⟩ := q
    by_cases hk : k = u
    · subst hk
      simp [addEdge, keysList, isKey]
    · have hkey : isKey ((k, vs) :: rest) u = isKey rest u := by
        simp [isKey, List.any_cons, hk]
      have hstep : keysList (addEdge ((k, vs) :: rest) u v) =
          k :: keysList (addEdge rest u v) := by
        simp [addEdge, if_neg hk, keysList]
      rw [hstep, ih, hkey]
      by_cases h : isKey rest u = true
      · rw [if_pos h, if_pos h]
        rfl
      · have h' : isKey rest u = false := by simpa using h
        rw [if_neg (by simp [h']), if_neg (by simp [h'])]
        rfl

/-- `g[u].add(v)` keeps the key list duplicate-free. -/
theorem keysNodup_addEdge (g : Graph) (u v : String)
    (h : (keysList g).Nodup) : (keysList (addEdge g u v)).Nodup := by
  rw [keysList_addEdge]
  by_cases hk : isKey g u = true
  · simpa [hk]
  · have hk' : isKey g u = false := by simpa using hk
    rw [if_neg (by simp [hk'])]
    refine List.Nodup.append h (List.nodup_singleton u) ?_
    intro x hx hx1
    rcases List.mem_singleton.mp hx1 with rfl
    exact absurd ((isKey_iff_mem_keys g x).mpr hx) (by simp [hk'])

/-- `setdefault` keeps the key list duplicate-free. -/
theorem keysNodup_setdefault (g : Graph) (u : String)
    (h : (keysList g).Nodup) : (keysList (setdefault g u)).Nodup := by
  unfold setdefault
  split
  · exact h
  · next hk =>
    have hk' : isKey g u = false := by simpa using hk
    simp only [keysList, List.map_append, List.map_cons, List.map_nil]
    refine List.Nodup.append h (List.nodup_singleton u) ?_
    intro x hx hx1
    rcases List.mem_singleton.mp hx1 with rfl
    exact absurd ((isKey_iff_mem_keys g x).mpr hx) (by simp [hk'])

/-- Membership after the inner loop of `reverse_graph`. -/
theorem revEdges_mem (u : String) :
    ∀ (vs : List String) (r : Graph) (a b : String),
      b ∈ graphGet (revEdges u r vs) a ↔
        b ∈ graphGet r a ∨ (b = u ∧ a ∈ vs) := by
  intro vs
  induction vs with
  | nil => simp [revEdges]
  | cons v vs ih =>
    intro r a b
    rw [revEdges, ih, mem_get_addEdge]
    simp only [List.mem_cons]
    constructor
    · rintro ((h | ⟨rfl, rfl⟩) | ⟨rfl, h⟩)
      · exact Or.inl h
      · exact Or.inr ⟨rfl, Or.inl rfl⟩
      · exact Or.inr ⟨rfl, Or.inr h⟩
    · rintro (h | ⟨rfl, rfl | h⟩)
      · exact Or.inl (Or.inl h)
      · exact Or.inl (Or.inr ⟨rfl, rfl⟩)
      · exact Or.inr ⟨rfl, h⟩

/-- The inner loop of `reverse_graph` keeps the key list duplicate-free. -/
theorem revEdges_keysNodup (u : String) :
    ∀ (vs : List String) (r : Graph), (keysList r).Nodup →
      (keysList (revEdges u r vs)).Nodup := by
  intro vs
  induction vs with
  | nil => intro r h; exact h
  | cons v vs ih =>
    intro r h
    exact ih (addEdge r v u) (keysNodup_addEdge r v u h)

/-- Membership after the outer loop of `reverse_graph`. -/
theorem revGo_mem :
    ∀ (entries : Graph) (r : Graph) (a b : String),
      b ∈ graphGet (revGo r entries) a ↔
        b ∈ graphGet r a ∨ ∃ nbrs, (b, nbrs) ∈ entries ∧ a ∈ nbrs := by
  intro entries
  induction entries with
  | nil => simp [revGo]
  | cons q rest ih =>
    obtain ⟨u, nbrs⟩ := q
    intro r a b
    rw [revGo, ih]
    simp only [get_setdefault, revEdges_mem, List.mem_cons, Prod.mk.injEq]
    constructor
    · rintro ((h | ⟨rfl, h⟩) | ⟨ns, hns, ha⟩)
      · exact Or.inl h
      · exact Or.inr ⟨nbrs, Or.inl ⟨rfl, rfl⟩, h⟩
      · exact Or.inr ⟨ns, Or.inr hns, ha⟩
    · rintro (h | ⟨ns, ⟨rfl, rfl⟩ | hns, ha⟩)
      · exact Or.inl (Or.inl h)
      · exact Or.inl (Or.inr ⟨rfl, ha⟩)
      · exact Or.inr ⟨ns, hns, ha⟩

/-- Membership in `reverse_graph(g)`: exactly the reversed edges of `g`'s
entries. -/
theorem mem_reverse (g : Graph) (a b : String) :
    b ∈ graphGet (reverse_graph g) a ↔
      ∃ nbrs, (b, nbrs) ∈ g ∧ a ∈ nbrs := by
  rw [reverse_graph, revGo_mem]
  simp [graphGet]

/-- `reverse_graph` always returns a store with duplicate-free keys. -/
theorem reverse_keysNodup (g : Graph) :
    (keysList (reverse_graph g)).Nodup := by
  have main : ∀ (entries r : Graph), (keysList r).Nodup →
      (keysList (revGo r entries)).Nodup := by
    intro entries
    induction entries with
    | nil => intro r h; exact h
    | cons q rest ih =>
      obtain ⟨u, nbrs⟩ := q
      intro r h
      exact ih _ (keysNodup_setdefault _ u (revEdges_keysNodup u nbrs r h))
  exact main g [] (by simp [keysList])

/-- A successful lookup comes from some entry of the list. -/
theorem get_mem_entry :
    ∀ (g : Graph) (a b : String), a ∈ graphGet g b →
      ∃ nbrs, (b, nbrs) ∈ g ∧ a ∈ nbrs := by
  intro g
  induction g with
  | nil => intro a b ha; simp [graphGet] at ha
  | cons q rest ih =>
    obtain ⟨k, vs⟩ := q
    intro a b ha
    by_cases hk : k = b
    · subst hk
      rw [graphGet, if_pos rfl] at ha
      exact ⟨vs, List.mem_cons_self _ _, ha⟩
    · rw [graphGet, if_neg hk] at ha
      obtain ⟨ns, hns, hans⟩ := ih a b ha
      exact ⟨ns, List.mem_cons_of_mem _ hns, hans⟩

/-- Over duplicate-free keys, every entry of the list is what lookup
returns for its key. -/
theorem entry_mem_get :
    ∀ (g : Graph), (keysList g).Nodup →
      ∀ (a b : String) (nbrs : List String),
        (b, nbrs) ∈ g → a ∈ nbrs → a ∈ graphGet g b := by
  intro g
  induction g with
  | nil =>
    intro _ a b nbrs h
    cases h
  | cons q rest ih =>
    obtain ⟨k, vs⟩ := q
    intro hnd a b nbrs hmem ha
    rcases (by simpa [keysList, List.nodup_cons] using hnd :
        k ∉ keysList rest ∧ (keysList rest).Nodup) with ⟨hknot, hrest⟩
    rcases List.mem_cons.mp hmem with hq | hq
    · obtain ⟨h1, h2⟩ := Prod.ext_iff.mp hq
      dsimp at h1 h2
      subst h1
      rw [graphGet, if_pos rfl]
      exact h2 ▸ ha
    · have hkb : k ≠ b := by
        intro hc
        subst hc
        exact hknot (List.mem_map_of_mem Prod.fst hq)
      rw [graphGet, if_neg hkb]
      exact ih hrest a b nbrs hq ha

/-- Over duplicate-free keys, an entry hit is the same as a lookup hit. -/
theorem mem_entry_iff_get (g : Graph) (a b : String)
    (hnd : (keysList g).Nodup) :
    (∃ nbrs, (b, nbrs) ∈ g ∧ a ∈ nbrs) ↔ a ∈ graphGet g b := by
  constructor
  · rintro ⟨nbrs, hmem, ha⟩
    exact entry_mem_get g hnd a b nbrs hmem ha
  · exact get_mem_entry g a b

/-! ## The worklist loop of `reachable` -/

/-- Everything a lookup returns occurs among the targets. -/
theorem get_sub_targets (g : Graph) (u v : String) (h : v ∈ graphGet g u) :
    v ∈ targetsList g := by
  induction g with
  | nil => simp [graphGet] at h
  | cons q rest ih =>
    obtain ⟨k, vs⟩ := q
    have hstep : targetsList ((k, vs) :: rest) = vs ++ targetsList rest := rfl
    rw [hstep]
    by_cases hk : k = u
    · rw [graphGet, if_pos hk] at h
      exact List.mem_append_left _ h
    · rw [graphGet, if_neg hk] at h
      exact List.mem_append_right _ (ih h)

/-- One expansion grows the seen-list by exactly the enqueued nodes. -/
theorem bfsScan_seen :
    ∀ (vs seen : List String),
      (bfsScan seen vs).1 = seen ++ (bfsScan seen vs).2 := by
  intro vs
  induction vs with
  | nil => intro seen; simp [bfsScan]
  | cons v vs ih =>
    intro seen
    by_cases hv : v ∈ seen
    · simpa [bfsScan, hv] using ih seen
    · simp only [bfsScan, hv, if_neg, if_false, not_false_eq_true]
      rw [ih (seen ++ [v])]
      simp

/-- The nodes enqueued by one expansion: duplicate-free, fresh, and drawn
from the scanned successor list. -/
theorem bfsScan_enq :
    ∀ (vs seen : List String),
      (bfsScan seen vs).2.Nodup ∧
        ∀ v ∈ (bfsScan seen vs).2, v ∉ seen ∧ v ∈ vs := by
  intro vs
  induction vs with
  | nil => intro seen; simp [bfsScan]
  | cons v vs ih =>
    intro seen
    by_cases hv : v ∈ seen
    · obtain ⟨h1, h2⟩ := ih seen
      refine ⟨by simpa [bfsScan, hv] using h1, ?_⟩
      intro w hw
      rw [show (bfsScan seen (v :: vs)).2 = (bfsScan seen vs).2 by
        simp [bfsScan, hv]] at hw
      obtain ⟨hw1, hw2⟩ := h2 w hw
      exact ⟨hw1, List.mem_cons_of_mem _ hw2⟩
    · obtain ⟨h1, h2⟩ := ih (seen ++ [v])
      have hstep : (bfsScan seen (v :: vs)).2 =
          v :: (bfsScan (seen ++ [v]) vs).2 := by
        simp [bfsScan, hv]
      rw [hstep]
      constructor
      · refine List.nodup_cons.mpr ⟨?_, h1⟩
        intro hc
        exact (h2 v hc).1 (List.mem_append_right _ (List.mem_singleton_self v))
      · intro w hw
        rcases List.mem_cons.mp hw with rfl | hw'
        · exact ⟨hv, List.mem_cons_self _ _⟩
        · obtain ⟨hw1, hw2⟩ := h2 w hw'
          exact ⟨fun hc => hw1 (List.mem_append_left _ hc),
            List.mem_cons_of_mem _ hw2⟩

/-- Membership in the seen-list after one expansion. -/
theorem bfsScan_mem :
    ∀ (vs seen : List String) (x : String),
      x ∈ (bfsScan seen vs).1 ↔ x ∈ seen ∨ x ∈ vs := by
  intro vs
  induction vs with
  | nil => intro seen x; simp [bfsScan]
  | cons v vs ih =>
    intro seen x
    by_cases hv : v ∈ seen
    · rw [show (bfsScan seen (v :: vs)).1 = (bfsScan seen vs).1 by
        simp [bfsScan, hv]]
      rw [ih seen x]
      simp only [List.mem_cons]
      constructor
      · rintro (h | h)
        · exact Or.inl h
        · exact Or.inr (Or.inr h)
      · rintro (h | rfl | h)
        · exact Or.inl h
        · exact Or.inl hv
        · exact Or.inr h
    · rw [show (bfsScan seen (v :: vs)).1 = (bfsScan (seen ++ [v]) vs).1 by
        simp [bfsScan, hv]]
      rw [ih (seen ++ [v]) x]
      simp only [List.mem_append, List.mem_singleton, List.mem_cons]
      tauto

/-- A successful worklist run appends to the seen-list exactly what it
appends to the enqueue log, and never enqueues a node twice after the
seeding. -/
theorem bfsLogGo_struct (g : Graph) :
    ∀ (fuel : Nat) (seen dq log S L : List String),
      bfsLogGo g fuel seen dq log = some (S, L) →
      ∃ app, S = seen ++ app ∧ L = log ++ app ∧ app.Nodup ∧
        ∀ v ∈ app, v ∉ seen := by
  intro fuel
  induction fuel with
  | zero =>
    intro seen dq log S L h
    cases dq with
    | nil =>
      rw [bfsLogGo] at h
      cases h
      exact ⟨[], by simp⟩
    | cons u dq => cases h
  | succ fuel ih =>
    intro seen dq log S L h
    cases dq with
    | nil =>
      rw [bfsLogGo] at h
      cases h
      exact ⟨[], by simp⟩
    | cons u dq =>
      rw [bfsLogGo] at h
      obtain ⟨app, hS, hL, hnodup, hfresh⟩ := ih _ _ _ _ _ h
      have hseen := bfsScan_seen (graphGet g u) seen
      have henq := bfsScan_enq (graphGet g u) seen
      refine ⟨(bfsScan seen (graphGet g u)).2 ++ app, ?_, ?_, ?_, ?_⟩
      · rw [hS, hseen, List.append_assoc]
      · rw [hL, List.append_assoc]
      · refine List.Nodup.append henq.1 hnodup ?_
        intro x hx1 hx2
        exact hfresh x hx2 (hseen ▸ List.mem_append_right _ hx1)
      · intro v hv
        rcases List.mem_append.mp hv with hv' | hv'
        · exact (henq.2 v hv').1
        · intro hc
          exact hfresh v hv' (hseen ▸ List.mem_append_left _ hc)

/-- The fuel allowance of `reachable` suffices: the worklist loop always
terminates within it. -/
theorem bfsLogGo_total (g : Graph) :
    ∀ (fuel : Nat) (seen dq log : List String),
      dq.length + ((targetsList g).toFinset \ seen.toFinset).card ≤ fuel →
      (bfsLogGo g fuel seen dq log).isSome = true := by
  intro fuel
  induction fuel with
  | zero =>
    intro seen dq log h
    cases dq with
    | nil => simp [bfsLogGo]
    | cons u dq => simp [List.length_cons] at h
  | succ fuel ih =>
    intro seen dq log h
    cases dq with
    | nil => simp [bfsLogGo]
    | cons u dq =>
      rw [bfsLogGo]
      apply ih
      have hseen := bfsScan_seen (graphGet g u) seen
      have henq := bfsScan_enq (graphGet g u) seen
      have hsub : (bfsScan seen (graphGet g u)).2.toFinset ⊆
          (targetsList g).toFinset \ seen.toFinset := by
        intro x hx
        obtain ⟨hxs, hxvs⟩ := henq.2 x (List.mem_toFinset.mp hx)
        exact Finset.mem_sdiff.mpr
          ⟨List.mem_toFinset.mpr (get_sub_targets g u x hxvs),
           fun hc => hxs (List.mem_toFinset.mp hc)⟩
      have hcard : ((targetsList g).toFinset \
          (bfsScan seen (graphGet g u)).1.toFinset).card =
          ((targetsList g).toFinset \ seen.toFinset).card -
            (bfsScan seen (graphGet g u)).2.length := by
        rw [hseen, List.toFinset_append]
        have hsplit : (targetsList g).toFinset \
            (seen.toFinset ∪ (bfsScan seen (graphGet g u)).2.toFinset) =
            ((targetsList g).toFinset \ seen.toFinset) \
              (bfsScan seen (graphGet g u)).2.toFinset := by
          ext x
          simp only [Finset.mem_sdiff, Finset.mem_union]
          tauto
        rw [hsplit, Finset.card_sdiff hsub,
          List.toFinset_card_of_nodup henq.1]
      have hge : (bfsScan seen (graphGet g u)).2.length ≤
          ((targetsList g).toFinset \ seen.toFinset).card := by
        calc (bfsScan seen (graphGet g u)).2.length
            = (bfsScan seen (graphGet g u)).2.toFinset.card :=
              (List.toFinset_card_of_nodup henq.1).symm
        _ ≤ _ := Finset.card_le_card hsub
      rw [List.length_append, hcard]
      simp only [List.length_cons] at h
      omega

/-- Forgetting the log gives the plain worklist loop. -/
theorem bfsLogGo_fst (g : Graph) :
    ∀ (fuel : Nat) (seen dq log : List String),
      (bfsLogGo g fuel seen dq log).map Prod.fst = bfsRun g fuel seen dq := by
  intro fuel
  induction fuel with
  | zero =>
    intro seen dq log
    cases dq with
    | nil => rfl
    | cons u dq => rfl
  | succ fuel ih =>
    intro seen dq log
    cases dq with
    | nil => rfl
    | cons u dq =>
      rw [bfsLogGo, bfsRun]
      exact ih _ _ _

/-- The initial worklist measure fits inside `bfsFuel`. -/
theorem bfsFuel_enough (g : Graph) (s : String) :
    ([s] : List String).length +
      ((targetsList g).toFinset \ ([] : List String).toFinset).card ≤
      bfsFuel g := by
  have hle : ((targetsList g).toFinset \ ([] : List String).toFinset).card ≤
      (targetsList g).length :=
    le_trans (Finset.card_le_card Finset.sdiff_subset) (List.toFinset_card_le _)
  simp only [List.length_singleton, bfsFuel]
  omega

/-- Everything the worklist collects is reachable by at least one edge. -/
theorem bfsRun_sound (g : Graph) (s : String) :
    ∀ (fuel : Nat) (seen dq S : List String),
      (∀ x ∈ seen, Reaches g s x) → (∀ x ∈ dq, x = s ∨ Reaches g s x) →
      bfsRun g fuel seen dq = some S → ∀ x ∈ S, Reaches g s x := by
  intro fuel
  induction fuel with
  | zero =>
    intro seen dq S hseen hdq h
    cases dq with
    | nil =>
      rw [bfsRun] at h
      cases h
      exact hseen
    | cons u dq => cases h
  | succ fuel ih =>
    intro seen dq S hseen hdq h
    cases dq with
    | nil =>
      rw [bfsRun] at h
      cases h
      exact hseen
    | cons u dq =>
      rw [bfsRun] at h
      have hu : u = s ∨ Reaches g s u := hdq u (List.mem_cons_self _ _)
      have hnew : ∀ x ∈ (bfsScan seen (graphGet g u)).2, Reaches g s x := by
        intro x hx
        have hxu : x ∈ graphGet g u :=
          ((bfsScan_enq (graphGet g u) seen).2 x hx).2
        rcases hu with rfl | hu'
        · exact Reaches.head hxu
        · exact Reaches.tail hu' hxu
      refine ih _ _ _ ?_ ?_ h
      · intro x hx
        rw [bfsScan_seen] at hx
        rcases List.mem_append.mp hx with hx' | hx'
        · exact hseen x hx'
        · exact hnew x hx'
      · intro x hx
        rcases List.mem_append.mp hx with hx' | hx'
        · exact hdq x (List.mem_cons_of_mem _ hx')
        · exact Or.inr (hnew x hx')

/-- One step of the worklist preserves the completeness invariant. -/
theorem bfsInv_step (g : Graph) (s u : String) (seen dq : List String)
    (h : BfsInv g s seen (u :: dq)) :
    BfsInv g s (bfsScan seen (graphGet g u)).1
      (dq ++ (bfsScan seen (graphGet g u)).2) := by
  have hseen := bfsScan_seen (graphGet g u) seen
  have hmem := bfsScan_mem (graphGet g u) seen
  constructor
  · rcases h.1 with hs | hs
    · rcases List.mem_cons.mp hs with rfl | hs'
      · right
        intro y hy
        exact (hmem y).mpr (Or.inr hy)
      · exact Or.inl (List.mem_append_left _ hs')
    · right
      intro y hy
      exact (hmem y).mpr (Or.inl (hs y hy))
  · intro x hx
    rw [hseen] at hx
    rcases List.mem_append.mp hx with hx' | hx'
    · rcases h.2 x hx' with hq | hexp
      · rcases List.mem_cons.mp hq with rfl | hq'
        · right
          intro y hy
          exact (hmem y).mpr (Or.inr hy)
        · exact Or.inl (List.mem_append_left _ hq')
      · right
        intro y hy
        exact (hmem y).mpr (Or.inl (hexp y hy))
    · exact Or.inl (List.mem_append_right _ hx')

/-- When the worklist drains, the collected set is closed under edges and
contains every successor of the start. -/
theorem bfsRun_closed (g : Graph) (s : String) :
    ∀ (fuel : Nat) (seen dq S : List String),
      BfsInv g s seen dq → bfsRun g fuel seen dq = some S →
      (∀ y ∈ graphGet g s, y ∈ S) ∧ ∀ x ∈ S, ∀ y ∈ graphGet g x, y ∈ S := by
  intro fuel
  induction fuel with
  | zero =>
    intro seen dq S hinv h
    cases dq with
    | nil =>
      rw [bfsRun] at h
      cases h
      refine ⟨?_, ?_⟩
      · rcases hinv.1 with hs | hs
        · cases hs
        · exact hs
      · intro x hx
        rcases hinv.2 x hx with hq | hexp
        · cases hq
        · exact hexp
    | cons u dq => cases h
  | succ fuel ih =>
    intro seen dq S hinv h
    cases dq with
    | nil =>
      rw [bfsRun] at h
      cases h
      refine ⟨?_, ?_⟩
      · rcases hinv.1 with hs | hs
        · cases hs
        · exact hs
      · intro x hx
        rcases hinv.2 x hx with hq | hexp
        · cases hq
        · exact hexp
    | cons u dq =>
      rw [bfsRun] at h
      exact ih _ _ _ (bfsInv_step g s u seen dq hinv) h

/-! ## The DOT renderer's line structure -/

/-- Edge-list membership is entry membership. -/
theorem mem_edgeList (g : Graph) (a b : String) :
    (a, b) ∈ edgeList g ↔ ∃ nbrs, (a, nbrs) ∈ g ∧ b ∈ nbrs := by
  simp only [edgeList, List.mem_flatMap, List.mem_map]
  constructor
  · rintro ⟨p, hp, v, hv, heq⟩
    obtain ⟨h1, h2⟩ := Prod.ext_iff.mp heq
    dsimp at h1 h2
    refine ⟨p.2, ?_, h2 ▸ hv⟩
    rw [← h1]
    simpa using hp
  · rintro ⟨nbrs, hmem, hb⟩
    exact ⟨(a, nbrs), hmem, b, hb, rfl⟩

/-- Every node collected in the `nodes` set of `to_dot` is a key or a
target, so the standalone condition never holds and the isolated-node
branch emits nothing. -/
theorem dot_standalone_empty (g : Graph) :
    (dotNodes g).filter (isolatedInDot g) = [] := by
  rw [List.filter_eq_nil_iff]
  intro n hn
  have hn' : n ∈ keysList g ++ targetsList g := List.mem_dedup.mp hn
  rcases List.mem_append.mp hn' with h | h
  · simp [isolatedInDot, (isKey_iff_mem_keys g n).mpr h]
  · obtain ⟨p, hp, hnp⟩ : ∃ p ∈ g, n ∈ p.2 := by
      simpa [targetsList, List.mem_flatMap] using h
    simp only [isolatedInDot, Bool.and_eq_true, Bool.not_eq_eq_eq_not,
      Bool.not_true, Bool.and_eq_false_iff]
    rintro ⟨-, h2⟩
    have hc : (g.any fun p => p.2.contains n) = true :=
      List.any_eq_true.mpr ⟨p, hp, by simpa using hnp⟩
    rw [h2] at hc
    cases hc

/-- With duplicate-free keys and duplicate-free value sets, the edge list
repeats no pair. -/
theorem edgeList_nodup (g : Graph) (hnd : (keysList g).Nodup)
    (hvals : ∀ p ∈ g, p.2.Nodup) : (edgeList g).Nodup := by
  induction g with
  | nil => simp [edgeList]
  | cons q rest ih =>
    obtain ⟨k, vs⟩ := q
    have hstep : edgeList ((k, vs) :: rest) =
        vs.map (fun v => (k, v)) ++ edgeList rest := rfl
    rw [hstep]
    rcases (by simpa [keysList, List.nodup_cons] using hnd :
        k ∉ keysList rest ∧ (keysList rest).Nodup) with ⟨hknot, hrest⟩
    refine List.Nodup.append ?_ ?_ ?_
    · exact List.Nodup.map (fun a b hab => congrArg Prod.snd hab)
        (hvals (k, vs) (List.mem_cons_self _ _))
    · exact ih hrest (fun p hp => hvals p (List.mem_cons_of_mem _ hp))
    · intro x hx1 hx2
      obtain ⟨v, hv, rfl⟩ := List.mem_map.mp hx1
      obtain ⟨nbrs, hmem, -⟩ := (mem_edgeList rest k v).mp hx2
      exact hknot (List.mem_map_of_mem Prod.fst hmem)

/-! ## Generic preservation through the crates.io builder -/

/-- A state predicate survives the dependency loop of the builder when it
survives edge recording and successful recursive calls. -/
theorem cratesDepLoop_pres (flt node : String)
    (rec : Graph × List String → String → Except PyErr (Graph × List String))
    (P : Graph × List String → Prop)
    (hrec : ∀ st v st2, matchesF flt v = false → P st → rec st v = .ok st2 →
      P st2)
    (hadd : ∀ st v, matchesF flt v = false → P st →
      P (addEdge st.1 node v, st.2)) :
    ∀ ds st st2, P st → cratesDepLoop flt node rec st ds = .ok st2 → P st2 := by
  intro ds
  induction ds with
  | nil =>
    intro st st2 h he
    rw [cratesDepLoop] at he
    cases he
    exact h
  | cons d ds ih =>
    intro st st2 h he
    rw [cratesDepLoop] at he
    by_cases hm : matchesF flt d.1 = true
    · rw [if_pos hm] at he
      exact ih st st2 h he
    · have hm' : matchesF flt d.1 = false := by simpa using hm
      rw [if_neg hm] at he
      have h1 : P (addEdge st.1 node d.1, st.2) := hadd st d.1 hm' h
      by_cases hv : d.1 ∈ (addEdge st.1 node d.1, st.2).2
      · rw [if_pos hv] at he
        exact ih _ st2 h1 he
      · rw [if_neg hv] at he
        cases hr : rec (addEdge st.1 node d.1, st.2) d.1 with
        | error e =>
          rw [hr] at he
          cases he
        | ok stn =>
          rw [hr] at he
          exact ih stn st2 (hrec _ d.1 stn hm' h1 hr) he

/-- A state predicate survives the builder's `dfs` when it survives
visited-marking and the recording of a non-filtered edge from a
non-filtered node. -/
theorem cratesDfs_pres (mo : String → Wire CrateMeta)
    (dd : String → String → Wire (List RawDep)) (flt : String)
    (P : Graph × List String → Prop)
    (hvis : ∀ st node, P st → P (st.1, st.2 ++ [node]))
    (hadd : ∀ st node v, matchesF flt node = false → matchesF flt v = false →
      P st → P (addEdge st.1 node v, st.2)) :
    ∀ fuel st node st2, P st → cratesDfs mo dd flt fuel st node = .ok st2 →
      P st2 := by
  intro fuel
  induction fuel with
  | zero =>
    intro st node st2 h he
    rw [cratesDfs] at he
    cases he
    exact h
  | succ fuel ih =>
    intro st node st2 h he
    rw [cratesDfs] at he
    by_cases hm : matchesF flt node = true
    · rw [if_pos hm] at he
      cases he
      exact h
    · have hm' : matchesF flt node = false := by simpa using hm
      rw [if_neg hm] at he
      by_cases hv : node ∈ st.2
      · rw [if_pos hv] at he
        cases he
        exact h
      · rw [if_neg hv] at he
        have h1 : P (st.1, st.2 ++ [node]) := hvis st node h
        cases hf : fetchNodeDeps mo dd node with
        | error e =>
          rw [hf] at he
          cases e with
          | systemExit c => cases he
          | exception =>
            cases he
            exact h1
        | ok deps =>
          rw [hf] at he
          exact cratesDepLoop_pres flt node (cratesDfs mo dd flt fuel) P
            (fun st v st2 hmv hP hr => ih st v st2 hP hr)
            (fun st v hmv hP => hadd st node v hm' hmv hP)
            deps _ st2 h1 he

/-- Unpacking a successful build into the final traversal state. -/
theorem build_ok_elim (mo : String → Wire CrateMeta)
    (dd : String → String → Wire (List RawDep)) (fuel : Nat)
    (root flt : String) (G : Graph)
    (h : build_graph_cratesio mo dd fuel root flt = .ok G) :
    ∃ st2, cratesDfs mo dd flt fuel ([], []) root = .ok st2 ∧ st2.1 = G := by
  unfold build_graph_cratesio at h
  cases hc : cratesDfs mo dd flt fuel ([], []) root with
  | error e =>
    rw [hc] at h
    cases h
  | ok st2 =>
    rw [hc] at h
    refine ⟨st2, rfl, ?_⟩
    simpa [Except.map] using h

/-! ## Claim theorems -/

/-- Claim C1 (code bug): the three named fetch failures — registry
unreachable, bad JSON, missing version — are routed through `fail`, which
raises `SystemExit(2)`; `except Exception` does not catch it, so the
builder aborts the whole run instead of treating the node as a leaf.
Only an error outside those named kinds is swallowed per-node. -/
theorem c1_named_fetch_failures_abort :
    build_graph_cratesio moNet ddEmpty 5 "a" "" =
        .error (.systemExit 2) ∧
    build_graph_cratesio moBadJson ddEmpty 5 "a" "" =
        .error (.systemExit 2) ∧
    build_graph_cratesio moNoVer ddEmpty 5 "a" "" =
        .error (.systemExit 2) ∧
    build_graph_cratesio moExc ddEmpty 5 "a" "" = .ok [] :=
  ⟨rfl, rfl, rfl, rfl⟩

/-- Claim C2, counterexample: on the graph `A → B` with filter `a`, the
start `A` matches the filter and its non-matching child `B` is *not*
recorded — the initiating call applies the filter to the start as well,
so the traversal records nothing. -/
theorem c2_counterexample :
    matchesF "a" "A" = true ∧ matchesF "a" "B" = false ∧
    dfs_prune_by_filter [("A", ["B"])] "A" "a" = [] := by
  decide

/-- Claim C3, counterexample: in `dfs_prune_by_filter` on the graph
`A → B` with no filter, the visited leaf `B` is an edge endpoint of the
output but is not a key of it. -/
theorem c3_counterexample :
    "B" ∈ graphGet (dfs_prune_by_filter [("A", ["B"])] "A" "") "A" ∧
    isKey (dfs_prune_by_filter [("A", ["B"])] "A" "") "B" = false := by
  decide

/-- Claim C4, counterexample: on the local graph `A: B C`, `B: C`, `C:`,
none of the three edges the claim asserts (`B → C`, `A → C`, `A → B`) is
in the reconstructed reverse-dependency subgraph for target `C`. -/
theorem c4_counterexample :
    "C" ∉ graphGet (reverse_subgraph localG "C") "B" ∧
    "C" ∉ graphGet (reverse_subgraph localG "C") "A" ∧
    "B" ∉ graphGet (reverse_subgraph localG "C") "A" := by
  decide

/-- Claim C4, amended: on the local graph `A: B C`, `B: C`, `C:`, the
reverse-dependency query for target `C` computes the reachable set
`{A, B}` over the reverse graph, and the reconstructed subgraph — kept
edges `v → u` of the reverse graph with `v` in the set and `u` in the set
or equal to the target — consists of exactly the reverse edge `B → A`. -/
theorem c4_reverse_query_value :
    reachable (reverse_graph localG) "C" = ["A", "B"] ∧
    reverse_subgraph localG "C" = [("B", ["A"])] := by
  decide

/-- Claim C5, counterexample: on the self-loop `A → A`, starting at `A`,
the node `A` is enqueued twice over the run (once by the initial seeding,
once when rediscovered), refuting "each node is enqueued at most once". -/
theorem c5_counterexample :
    bfsLog [("A", ["A"])] "A" = ["A", "A"] := by
  decide

/-- Claim C6, counterexample: the node `A` of the graph `\x7bA: ∅\x7d` is a
key with no outgoing and no incoming edges, yet `to_dot` emits no
standalone quoted node statement for it — the emitted lines are exactly
the header and the closing brace. -/
theorem c6_counterexample :
    isKey [("A", ([] : List String))] "A" = true ∧
    targetsList [("A", ([] : List String))] = [] ∧
    nodeLine "A" ∉ toDotLines [("A", ([] : List String))] := by
  decide

/-- Claim C2, amended: `dfs_prune_by_filter` applies the filter check to
the initiating call as well: when the start matches a non-empty filter the
traversal visits nothing and returns the empty graph; when the start does
not match, it is expanded and an edge to each of its non-matching children
is recorded. -/
theorem c2_filter_applies_to_start :
    ∀ (g : Graph) (s f : String),
      (matchesF f s = true → dfs_prune_by_filter g s f = []) ∧
      (matchesF f s = false → ∀ v, v ∈ graphGet g s → matchesF f v = false →
        v ∈ graphGet (dfs_prune_by_filter g s f) s) := by
  intro g s f
  constructor
  · intro hm
    show (pruneGo g f ((keysList g).length + (targetsList g).length + 1)
      ([], []) s).2 = []
    rw [pruneGo]
    simp [hm]
  · intro hm v hv hmv
    show v ∈ graphGet (pruneGo g f ((keysList g).length +
      (targetsList g).length + 1) ([], []) s).2 s
    rw [pruneGo]
    simp only [List.not_mem_nil, if_false, hm, Bool.false_eq_true,
      List.nil_append]
    exact pruneLoop_records g f s _ (graphGet g s) (fun w hw => hw)
      ([s], []) v hv hmv

/-- Claim C2, witness: a start matching the filter yields the empty graph;
a non-matching start has its child recorded. -/
theorem c2_filter_applies_to_start_witness :
    dfs_prune_by_filter [("A", ["B"])] "A" "a" = [] ∧
    "B" ∈ graphGet (dfs_prune_by_filter [("A", ["B"])] "A" "") "A" :=
  ⟨(c2_filter_applies_to_start [("A", ["B"])] "A" "a").1 (by decide),
   (c2_filter_applies_to_start [("A", ["B"])] "A" "").2 (by decide) "B"
     (by decide) (by decide)⟩

/-- Claim C3, amended: in the graphs produced by `dfs_prune_by_filter` and
`build_graph_cratesio`, a node is a key exactly when at least one outgoing
edge was recorded for it; visited dependency-less leaves and pure edge
targets are not keys, and lookups treat them as having an empty set. -/
theorem c3_keys_iff_outedge :
    ∀ (g : Graph) (s f u : String),
      (isKey (dfs_prune_by_filter g s f) u = true ↔
        graphGet (dfs_prune_by_filter g s f) u ≠ []) ∧
      (∀ mo dd fuel root flt G,
        build_graph_cratesio mo dd fuel root flt = .ok G →
        (isKey G u = true ↔ graphGet G u ≠ [])) := by
  intro g s f u
  constructor
  · refine isKey_iff_get_ne _ u ?_
    exact pruneGo_NEVals g f (pruneFuel g) ([], []) s
      (fun p hp => absurd hp (List.not_mem_nil p))
  · intro mo dd fuel root flt G hG
    obtain ⟨st2, hrun, hfst⟩ := build_ok_elim mo dd fuel root flt G hG
    refine isKey_iff_get_ne _ u ?_
    rw [← hfst]
    exact cratesDfs_pres mo dd flt (fun st => NEVals st.1)
      (fun st node h => h)
      (fun st node v _ _ h => NEVals_addEdge st.1 node v h)
      fuel ([], []) root st2
      (fun p hp => absurd hp (List.not_mem_nil p)) hrun

/-- Claim C3, witness: the equivalence evaluated on the pruned output of
`A → B` and on a concrete successful build. -/
theorem c3_keys_iff_outedge_witness :
    (isKey (dfs_prune_by_filter [("A", ["B"])] "A" "") "B" = true ↔
      graphGet (dfs_prune_by_filter [("A", ["B"])] "A" "") "B" ≠ []) ∧
    (isKey [("aa", ["okx"])] "okx" = true ↔
      graphGet [("aa", ["okx"])] "okx" ≠ []) :=
  ⟨(c3_keys_iff_outedge [("A", ["B"])] "A" "" "B").1,
   (c3_keys_iff_outedge [("A", ["B"])] "A" "" "okx").2 moOne ddDemo 5 "aa" "bad"
     [("aa", ["okx"])] rfl⟩

/-- Claim C10 (confirmed): the output of `dfs_prune_by_filter` is a sound
subgraph of the input: every recorded edge is an edge of the source, and
every key of the output is reached from the start along a path of source
edges none of whose nodes matches the filter. -/
theorem c10_prune_sound :
    ∀ (g : Graph) (s f : String),
      (∀ u v, v ∈ graphGet (dfs_prune_by_filter g s f) u →
        v ∈ graphGet g u) ∧
      (∀ u, isKey (dfs_prune_by_filter g s f) u = true → ReachNF g f s u) := by
  intro g s f
  constructor
  · intro u v hv
    refine pruneGo_edges_sound g f (pruneFuel g) ([], []) s ?_ u v hv
    intro a b hb
    simp [graphGet] at hb
  · intro u hu
    refine pruneGo_keys_reach g f s (pruneFuel g) ([], []) s
      (fun hm => ReachNF.base hm) ?_ u hu
    intro a ha
    simp [isKey] at ha

/-- Claim C10, witness: the soundness statements evaluated on the graph
`A → B` with no filter. -/
theorem c10_prune_sound_witness :
    "B" ∈ graphGet [("A", ["B"])] "A" ∧ ReachNF [("A", ["B"])] "" "A" "A" :=
  ⟨(c10_prune_sound [("A", ["B"])] "A" "").1 "A" "B" (by decide),
   (c10_prune_sound [("A", ["B"])] "A" "").2 "A" (by decide)⟩

/-- Claim C8 (confirmed): a node whose lowercase name contains the
lowercase non-empty filter never appears in a graph returned by
`build_graph_cratesio` — neither as a key nor as an edge target: matching
dependencies are skipped before edge insertion and matching nodes are
never expanded. -/
theorem c8_filtered_excluded :
    ∀ (mo : String → Wire CrateMeta) (dd : String → String → Wire (List RawDep))
      (fuel : Nat) (root flt : String) (G : Graph),
      build_graph_cratesio mo dd fuel root flt = .ok G →
      ∀ u w, matchesF flt u = true → isKey G u = false ∧ u ∉ graphGet G w := by
  intro mo dd fuel root flt G hG u w hu
  obtain ⟨st2, hrun, hfst⟩ := build_ok_elim mo dd fuel root flt G hG
  have key : ∀ st2, cratesDfs mo dd flt fuel ([], []) root = .ok st2 →
      (∀ x, matchesF flt x = true → isKey st2.1 x = false) ∧
      (∀ x y, matchesF flt x = true → x ∉ graphGet st2.1 y) := by
    intro st2 hrun
    refine cratesDfs_pres mo dd flt
      (fun st => (∀ x, matchesF flt x = true → isKey st.1 x = false) ∧
        (∀ x y, matchesF flt x = true → x ∉ graphGet st.1 y))
      (fun st node h => h) ?_ fuel ([], []) root st2 ?_ hrun
    · intro st node v hnode hv h
      constructor
      · intro x hx
        have hxn : x ≠ node := fun hc => by rw [hc, hnode] at hx; cases hx
        rw [isKey_addEdge_ne st.1 node v x hxn]
        exact h.1 x hx
      · intro x y hx hmem
        rcases (mem_get_addEdge st.1 node v y x).mp hmem with hmem | ⟨-, rfl⟩
        · exact h.2 x y hx hmem
        · rw [hv] at hx
          cases hx
    · exact ⟨fun x _ => by simp [isKey], fun x y _ hm => by
        simp [graphGet] at hm⟩
  rw [← hfst]
  exact ⟨(key st2 hrun).1 u hu, (key st2 hrun).2 u w hu⟩

/-- Claim C8, witness: in the build of `aa` under filter `bad`, where the
registry lists dependencies `badx` and `okx`, the matching name `badx` is
neither a key nor a target. -/
theorem c8_filtered_excluded_witness :
    isKey [("aa", ["okx"])] "badx" = false ∧
    "badx" ∉ graphGet [("aa", ["okx"])] "aa" :=
  c8_filtered_excluded moOne ddDemo 5 "aa" "bad" [("aa", ["okx"])] rfl
    "badx" "aa" (by decide)

/-- Claim C6, amended: `to_dot` emits one quoted-pair arrow statement per
edge (a duplicate-free set of lines when keys and value sets are
duplicate-free, with pair membership matching graph lookups), but it never
declares any standalone node: the isolated-node branch's condition is
unsatisfiable for members of the collected node set, so the output is
exactly the header, the arrow statements, and the closing brace. -/
theorem c6_dot_lines :
    ∀ g : Graph,
      (toDotLines g = dotHeader ++
        (edgeList g).map (fun p => arrowLine p.1 p.2) ++ ["\x7d"]) ∧
      ((keysList g).Nodup → ∀ u v,
        ((u, v) ∈ edgeList g ↔ v ∈ graphGet g u)) ∧
      ((keysList g).Nodup → (∀ p ∈ g, p.2.Nodup) → (edgeList g).Nodup) := by
  intro g
  refine ⟨?_, ?_, edgeList_nodup g⟩
  · rw [toDotLines, dot_standalone_empty]
    simp
  · intro hnd u v
    rw [mem_edgeList]
    exact mem_entry_iff_get g v u hnd

/-- Claim C6, witness: the statements evaluated on the two-edge subgraph
of the local graph reachable from `B` — two arrow lines, no node lines. -/
theorem c6_dot_lines_witness :
    (("A", "B") ∈ edgeList localG ↔ "B" ∈ graphGet localG "A") ∧
    (edgeList localG).Nodup :=
  ⟨(c6_dot_lines localG).2.1 (by decide) "A" "B",
   (c6_dot_lines localG).2.2 (by decide) (by decide)⟩

/-- Claim C9 (confirmed): over an adjacency mapping (duplicate-free keys;
sets deduplicate edges), reversing twice restores exactly the edge set. -/
theorem c9_double_reverse :
    ∀ g : Graph, (keysList g).Nodup → ∀ u v,
      (v ∈ graphGet (reverse_graph (reverse_graph g)) u ↔
        v ∈ graphGet g u) := by
  intro g hnd u v
  rw [mem_reverse]
  constructor
  · rintro ⟨nbrs, hmem, hu⟩
    have h1 : u ∈ graphGet (reverse_graph g) v :=
      entry_mem_get _ (reverse_keysNodup g) u v nbrs hmem hu
    obtain ⟨ns, hns, hv⟩ := (mem_reverse g v u).mp h1
    exact entry_mem_get g hnd v u ns hns hv
  · intro hv
    obtain ⟨ns, hns, hv'⟩ := get_mem_entry g v u hv
    exact get_mem_entry (reverse_graph g) u v
      ((mem_reverse g v u).mpr ⟨ns, hns, hv'⟩)

/-- Claim C9, witness: double reversal evaluated on the one-edge graph. -/
theorem c9_double_reverse_witness :
    "B" ∈ graphGet (reverse_graph (reverse_graph [("A", ["B"])])) "A" ↔
      "B" ∈ graphGet [("A", ["B"])] "A" :=
  c9_double_reverse [("A", ["B"])] (by decide) "A" "B"

/-- Claim C5, amended: the worklist loop of `reachable` terminates within
the fuel allowance on every graph, cyclic or not, and the seen-set lets
every node other than the start be enqueued at most once; the start itself
is enqueued at most twice (the initial seeding, which does not mark it
seen, plus at most one rediscovery through a cycle). -/
theorem c5_enqueue_bound :
    ∀ (g : Graph) (s : String),
      (bfsLogGo g (bfsFuel g) [] [s] [s]).isSome = true ∧
      ∀ v, (bfsLog g s).count v ≤ if v = s then 2 else 1 := by
  intro g s
  have htot : (bfsLogGo g (bfsFuel g) [] [s] [s]).isSome = true :=
    bfsLogGo_total g (bfsFuel g) [] [s] [s] (bfsFuel_enough g s)
  refine ⟨htot, ?_⟩
  intro v
  cases hrun : bfsLogGo g (bfsFuel g) [] [s] [s] with
  | none =>
    rw [hrun] at htot
    cases htot
  | some p =>
    obtain ⟨S, L⟩ := p
    obtain ⟨app, hS, hL, hnodup, hfresh⟩ :=
      bfsLogGo_struct g (bfsFuel g) [] [s] [s] S L hrun
    have hlog : bfsLog g s = L := by rw [bfsLog, hrun]
    rw [hlog, hL, List.count_append]
    have happ : app.count v ≤ 1 := List.nodup_iff_count_le_one.mp hnodup v
    by_cases hv : v = s
    · subst hv
      rw [if_pos rfl]
      have h1 : List.count v [v] = 1 := by simp
      omega
    · rw [if_neg hv]
      have h0 : List.count v [s] = 0 := by
        simp [List.count_singleton', hv]
      omega

/-- Claim C7 (confirmed): `reachable(g, x)` contains exactly the nodes
reachable from `x` along one or more forward edges; in particular it
contains `x` itself exactly when some cycle routes back to `x`. -/
theorem c7_reachable_iff_reaches :
    ∀ (g : Graph) (s v : String), v ∈ reachable g s ↔ Reaches g s v := by
  intro g s v
  obtain ⟨p, hp⟩ := Option.isSome_iff_exists.mp
    (bfsLogGo_total g (bfsFuel g) [] [s] [s] (bfsFuel_enough g s))
  have hS : bfsRun g (bfsFuel g) [] [s] = some p.1 := by
    rw [← bfsLogGo_fst g (bfsFuel g) [] [s] [s], hp]
    rfl
  have hreach : reachable g s = p.1 := by
    rw [reachable, hS]
    rfl
  rw [hreach]
  constructor
  · intro hv
    exact bfsRun_sound g s (bfsFuel g) [] [s] p.1
      (fun x hx => absurd hx (List.not_mem_nil x))
      (fun x hx => Or.inl (List.mem_singleton.mp hx)) hS v hv
  · intro hr
    have hcl := bfsRun_closed g s (bfsFuel g) [] [s] p.1
      ⟨Or.inl (List.mem_singleton_self s),
       fun x hx => absurd hx (List.not_mem_nil x)⟩ hS
    induction hr with
    | head hv => exact hcl.1 _ hv
    | tail hu hv ih => exact hcl.2 _ ih _ hv

end DepsTool
